import Mathlib

/-!
Verification model of `src/cache.rs` (crate `thru`): a write-back,
single-flight, read-through key/value cache over a user-supplied `Store`.

The whole index lives behind one mutex, so every critical section of the
Rust code is modelled as one atomic transition on an explicit `CacheState`.
`Arc<V>` shared handles are modelled by an external-reference counter per
resident node (`Arc::try_unwrap` succeeds exactly when that counter is
zero).  The `tokio::sync::broadcast` notifier of a `Fetching` entry is
modelled by a `ChannelState` (subscriber count plus an outcome); the store
is the pure function `F : K → V` given to the transitions that call it,
and the traces of `store.fetch` / `store.update` invocations are recorded
in the state.

`CacheNode::Dummy` (src/cache.rs lines 53-77) is a sentinel that exists
only transiently inside a single locked critical section: both
`try_evict_without_lock` (lines 200-215) and the pruner (lines 304-317)
`mem::replace` the node with `Dummy` and, before releasing the lock,
either remove the whole entry or restore the real node.  A `Dummy` node
therefore never survives to a lock release, so entries of this model hold
a `RealCacheNode` directly and the `Dummy`/`unreachable!` arms are the
dead arms of that sentinel discipline.
-/

set_option autoImplicit false
set_option maxHeartbeats 1000000

namespace Thru

/-- Model of `RealCacheNode<V>` (src/cache.rs lines 24-51).  `lastAccessTs`
is the `Instant` timestamp as a natural number; `extRefs` is the number of
`Arc` clones of `value` living outside the cache's own copy, so the Rust
strong count is `extRefs + 1` and `Arc::try_unwrap` on the cache's copy
succeeds exactly when `extRefs = 0`. -/
structure RealCacheNode (V : Type) where
  value : V
  lastAccessTs : Nat
  extRefs : Nat
deriving DecidableEq, Repr

/-- Outcome of a `broadcast::channel(1)` notifier.  `sent v` means the
producer executed `tx.send(v)`: every receiver subscribed before the send
(which is all of them, since subscriptions happen under the index lock
before the producer publishes) receives `v`.  `closed` would mean every
sender was dropped without a send; the code never produces it because the
producer task always sends before finishing (src/cache.rs line 161). -/
inductive ChannelOutcome (V : Type) where
  | pending
  | sent (v : V)
  | closed
deriving DecidableEq, Repr

/-- A broadcast notifier: how many receivers are attached and its outcome. -/
structure ChannelState (V : Type) where
  subs : Nat
  outcome : ChannelOutcome V
deriving DecidableEq, Repr

/-- Model of `CacheEntry<V>` (src/cache.rs lines 79-83).  A `Fetching`
entry stores the identifier of its broadcast channel (the Rust entry holds
a clone of the `broadcast::Sender`). -/
inductive CacheEntry (V : Type) where
  | Fetching (ch : Nat)
  | Node (node : RealCacheNode V)
deriving DecidableEq, Repr

section AList

variable {K A : Type} [DecidableEq K]

/-- Lookup in an association list, modelling `HashMap::get`. -/
def lookupA : List (K × A) → K → Option A
  | [], _ => none
  | (k', a) :: t, k => if k' = k then some a else lookupA t k

/-- Remove every binding of `k`, modelling `HashMap::remove` (the lists we
build never bind a key twice, so this removes at most one binding). -/
def eraseA : List (K × A) → K → List (K × A)
  | [], _ => []
  | (k', a) :: t, k => if k' = k then eraseA t k else (k', a) :: eraseA t k

/-- Insert/replace a binding, modelling `HashMap::insert`. -/
def insertA (l : List (K × A)) (k : K) (a : A) : List (K × A) :=
  (k, a) :: eraseA l k

@[simp] theorem lookupA_nil (k : K) : lookupA ([] : List (K × A)) k = none := rfl

@[simp] theorem lookupA_cons (k' k : K) (a : A) (t : List (K × A)) :
    lookupA ((k', a) :: t) k = if k' = k then some a else lookupA t k := rfl

@[simp] theorem lookupA_eraseA_self (l : List (K × A)) (k : K) :
    lookupA (eraseA l k) k = none := by
  induction l with
  | nil => rfl
  | cons p t ih =>
    obtain ⟨k', a⟩ := p
    by_cases h : k' = k
    · simp [eraseA, h, ih]
    · simp [eraseA, h, ih]

theorem lookupA_eraseA_ne (l : List (K × A)) (k k' : K) (h : k' ≠ k) :
    lookupA (eraseA l k) k' = lookupA l k' := by
  induction l with
  | nil => rfl
  | cons p t ih =>
    obtain ⟨k₀, a⟩ := p
    by_cases hk : k₀ = k
    · subst hk
      have hne : k₀ ≠ k' := fun hh => h hh.symm
      simp [eraseA, hne, ih]
    · by_cases hk' : k₀ = k'
      · simp [eraseA, hk, hk', h]
      · simp [eraseA, hk, hk', ih]

@[simp] theorem lookupA_insertA_self (l : List (K × A)) (k : K) (a : A) :
    lookupA (insertA l k a) k = some a := by
  simp [insertA]

theorem lookupA_insertA_ne (l : List (K × A)) (k k' : K) (a : A) (h : k' ≠ k) :
    lookupA (insertA l k a) k' = lookupA l k' := by
  simp [insertA, Ne.symm h, lookupA_eraseA_ne l k k' h]

theorem mem_eraseA {l : List (K × A)} {k : K} {p : K × A}
    (h : p ∈ eraseA l k) : p ∈ l ∧ p.1 ≠ k := by
  induction l with
  | nil => cases h
  | cons q t ih =>
    obtain ⟨k₀, a⟩ := q
    by_cases hk : k₀ = k
    · simp only [eraseA, if_pos hk] at h
      exact ⟨List.mem_cons_of_mem _ (ih h).1, (ih h).2⟩
    · simp only [eraseA, if_neg hk] at h
      rw [List.mem_cons] at h
      rcases h with h | h
      · exact ⟨h ▸ List.mem_cons_self _ _, h ▸ hk⟩
      · exact ⟨List.mem_cons_of_mem _ (ih h).1, (ih h).2⟩

theorem mem_insertA {l : List (K × A)} {k : K} {a : A} {p : K × A}
    (h : p ∈ insertA l k a) : p = (k, a) ∨ (p ∈ l ∧ p.1 ≠ k) := by
  rw [insertA, List.mem_cons] at h
  rcases h with h | h
  · exact Or.inl h
  · exact Or.inr (mem_eraseA h)

theorem lookupA_eq_none_of_not_mem_keys {l : List (K × A)} {k : K}
    (h : k ∉ l.map Prod.fst) : lookupA l k = none := by
  induction l with
  | nil => rfl
  | cons p t ih =>
    obtain ⟨k₀, a⟩ := p
    simp only [List.map_cons, List.mem_cons] at h
    push_neg at h
    have hne : k₀ ≠ k := fun hh => h.1 hh.symm
    simp [hne, ih h.2]

theorem not_mem_keys_of_lookupA_eq_none {l : List (K × A)} {k : K}
    (h : lookupA l k = none) : k ∉ l.map Prod.fst := by
  induction l with
  | nil => simp
  | cons p t ih =>
    obtain ⟨k₀, a⟩ := p
    by_cases hk : k₀ = k
    · simp [hk] at h
    · simp only [lookupA_cons, if_neg hk] at h
      simp only [List.map_cons, List.mem_cons]
      push_neg
      exact ⟨fun hh => hk hh.symm, ih h⟩

theorem keys_eraseA_subset {l : List (K × A)} {k k' : K}
    (h : k' ∈ (eraseA l k).map Prod.fst) : k' ∈ l.map Prod.fst ∧ k' ≠ k := by
  simp only [List.mem_map] at h
  obtain ⟨p, hp, hpk⟩ := h
  obtain ⟨hmem, hne⟩ := mem_eraseA hp
  exact ⟨List.mem_map.mpr ⟨p, hmem, hpk⟩, hpk ▸ hne⟩

end AList

section Channels

variable {V : Type}

/-- Set the outcome of channel `i` (models `tx.send`). -/
def chSet : List (ChannelState V) → Nat → ChannelOutcome V → List (ChannelState V)
  | [], _, _ => []
  | c :: t, 0, o => { c with outcome := o } :: t
  | c :: t, i + 1, o => c :: chSet t i o

/-- Add one subscriber to channel `i` (models `tx.subscribe()`). -/
def chBump : List (ChannelState V) → Nat → List (ChannelState V)
  | [], _ => []
  | c :: t, 0 => { c with subs := c.subs + 1 } :: t
  | c :: t, i + 1 => c :: chBump t i

/-- Read channel `i` (out-of-range reads return an inert default; all uses
are guarded by in-range facts). -/
def chGet (cs : List (ChannelState V)) (i : Nat) : ChannelState V :=
  (cs.get? i).getD ⟨0, ChannelOutcome.pending⟩

@[simp] theorem length_chSet (cs : List (ChannelState V)) (i : Nat) (o : ChannelOutcome V) :
    (chSet cs i o).length = cs.length := by
  induction cs generalizing i with
  | nil => rfl
  | cons c t ih => cases i <;> simp [chSet, ih]

@[simp] theorem length_chBump (cs : List (ChannelState V)) (i : Nat) :
    (chBump cs i).length = cs.length := by
  induction cs generalizing i with
  | nil => rfl
  | cons c t ih => cases i <;> simp [chBump, ih]

theorem chGet_chSet_self (cs : List (ChannelState V)) (i : Nat) (o : ChannelOutcome V)
    (h : i < cs.length) : chGet (chSet cs i o) i = { chGet cs i with outcome := o } := by
  induction cs generalizing i with
  | nil => cases h
  | cons c t ih =>
    cases i with
    | zero => simp [chSet, chGet]
    | succ j =>
      simp only [chSet, chGet, List.get?]
      exact ih j (Nat.lt_of_succ_lt_succ h)

theorem chGet_append_right (cs : List (ChannelState V)) (c : ChannelState V) :
    chGet (cs ++ [c]) cs.length = c := by
  induction cs with
  | nil => rfl
  | cons d t ih => simp only [List.cons_append, List.length_cons, chGet, List.get?]; exact ih

theorem chGet_chBump_self (cs : List (ChannelState V)) (i : Nat) (h : i < cs.length) :
    chGet (chBump cs i) i = { chGet cs i with subs := (chGet cs i).subs + 1 } := by
  induction cs generalizing i with
  | nil => cases h
  | cons c t ih =>
    cases i with
    | zero => simp [chBump, chGet]
    | succ j =>
      simp only [chBump, chGet, List.get?]
      exact ih j (Nat.lt_of_succ_lt_succ h)

end Channels

section Ops

variable {K V : Type} [DecidableEq K]

/-- Global state of one `Cache<K, V>` together with the traces it induced
on its store.  `index` models the mutex-protected `HashMap<K, CacheEntry>`;
`producers` the in-flight fetch tasks spawned by `get` (each remembers the
broadcast channel it will send on); `channels` the broadcast notifiers ever
created (`nextCh` is the next fresh identifier); `flushQ` the unbounded
`evict_tx`/`evict_rx` queue; `updates` and `fetches` the sequences of
`store.update` / `store.fetch` invocations observed by the store;
`reclaimed` is the ghost history of every pair handed to the flush
pipeline; `prunerGen`/`evictorGen` count how many pruner / flush-worker
tasks have been installed (they grow when `evict_all_sync` rotates the
pipeline).  `now` is the monotonic clock read by `Instant::now()`. -/
structure CacheState (K V : Type) where
  index : List (K × CacheEntry V)
  producers : List (K × Nat)
  channels : List (ChannelState V)
  nextCh : Nat
  flushQ : List (K × V)
  updates : List (K × V)
  fetches : List K
  reclaimed : List (K × V)
  now : Nat
  accessTtl : Nat
  prunerGen : Nat
  evictorGen : Nat
deriving DecidableEq, Repr

/-- Model of `Cache::new(store)` (src/cache.rs lines 99-120): an empty
index, a fresh flush channel, a freshly spawned evictor and pruner, and
`access_ttl` fixed to `Duration::from_secs(10)` (line 108).  The function
takes only the store (here implicit in the `F` passed to transitions): it
has no TTL parameter. -/
def CacheState.new (K V : Type) : CacheState K V :=
  { index := [], producers := [], channels := [], nextCh := 0, flushQ := [],
    updates := [], fetches := [], reclaimed := [], now := 0, accessTtl := 10,
    prunerGen := 0, evictorGen := 0 }

/-- Sleep period of the pruner loop, `sleep(Duration::from_secs(10))` at
src/cache.rs line 322 — a hard-coded constant, not a configuration
parameter of `Cache`. -/
def prunerSleepSecs : Nat := 10

/-- Modelled from the spec (section 6, operation table): the constructor
the spec describes, `new(store, access_ttl?)`, taking an optional idle TTL
that defaults to 10 s.  Used only to compare the spec's configuration
surface against the source's `Cache::new`. -/
def newSpec (K V : Type) (accessTtl? : Option Nat) : CacheState K V :=
  { CacheState.new K V with accessTtl := accessTtl?.getD 10 }

/-- What a single `get(k)` observed in its critical section. -/
inductive GetOutcome (V : Type) where
  | hit (v : V)
  | attached (ch : Nat)
  | initiated (ch : Nat)
deriving DecidableEq, Repr

/-- Critical section of `Cache::get` (src/cache.rs lines 122-177), one
atomic step under the index lock:
* key absent (lines 127-164): create a `broadcast::channel(1)` (the caller
  keeps its receiver, hence one subscriber), insert a `Fetching` entry
  holding a clone of the sender, and spawn the producer task — whose first
  action, before re-acquiring the lock, is `store.fetch(&k)`, recorded here
  in `fetches`;
* `Fetching` (lines 166-170): subscribe to the existing notifier;
* `Node` (lines 171-175): bump `last_access_ts` and clone the `Arc`
  (one more external reference). -/
def getStart (k : K) (s : CacheState K V) : CacheState K V × GetOutcome V :=
  match lookupA s.index k with
  | none =>
      let ch := s.nextCh
      ({ s with index := insertA s.index k (CacheEntry.Fetching ch),
                channels := s.channels ++ [⟨1, ChannelOutcome.pending⟩],
                nextCh := ch + 1,
                producers := s.producers ++ [(k, ch)],
                fetches := s.fetches ++ [k] },
       GetOutcome.initiated ch)
  | some (CacheEntry.Fetching ch) =>
      ({ s with channels := chBump s.channels ch }, GetOutcome.attached ch)
  | some (CacheEntry.Node n) =>
      let n' := CacheEntry.Node { n with lastAccessTs := s.now, extRefs := n.extRefs + 1 }
      ({ s with index := insertA s.index k n' }, GetOutcome.hit n.value)

/-- Iterate the critical section of `get k` for a batch of callers,
collecting each caller's outcome in call order. -/
def getN (k : K) : Nat → CacheState K V → CacheState K V × List (GetOutcome V)
  | 0, s => (s, [])
  | n + 1, s =>
      let r := getStart k s
      let r' := getN k n r.1
      (r'.1, r.2 :: r'.2)

/-- Value a `get` caller ends up holding once it resumes: a hit returns the
cloned handle directly; a waiter returns the value its broadcast channel
delivered (`rx.recv().await`, src/cache.rs lines 164 and 169), or nothing
if the channel is still pending or was closed. -/
def resultOf (s : CacheState K V) : GetOutcome V → Option V
  | GetOutcome.hit v => some v
  | GetOutcome.attached ch =>
      match (chGet s.channels ch).outcome with
      | ChannelOutcome.sent v => some v
      | _ => none
  | GetOutcome.initiated ch =>
      match (chGet s.channels ch).outcome with
      | ChannelOutcome.sent v => some v
      | _ => none

/-- Completion of the producer task spawned by `get` (src/cache.rs lines
133-162), one atomic step: having fetched `F k`, it re-acquires the lock
and settles the slot — if the slot holds a `Node` (a concurrent `insert`
raced ahead) it keeps that value and bumps `last_access_ts`; if the slot is
`Fetching` or vacant (evicted mid-fetch) it installs a fresh node with the
fetched value — then broadcasts the settled value on its channel `ch`,
handing one `Arc` clone to each subscriber. -/
def producerFinish (F : K → V) (k : K) (ch : Nat) (s : CacheState K V) : CacheState K V :=
  let fetchv := F k
  let subs := (chGet s.channels ch).subs
  let s' :=
    match lookupA s.index k with
    | some (CacheEntry.Node n) =>
        let n' := CacheEntry.Node { n with lastAccessTs := s.now, extRefs := n.extRefs + subs }
        { s with index := insertA s.index k n',
                 channels := chSet s.channels ch (ChannelOutcome.sent n.value) }
    | _ =>
        { s with index := insertA s.index k (CacheEntry.Node ⟨fetchv, s.now, subs⟩),
                 channels := chSet s.channels ch (ChannelOutcome.sent fetchv) }
  { s' with producers := s'.producers.filter (fun p => p ≠ (k, ch)) }

/-- Model of `Cache::insert` (src/cache.rs lines 179-184):
`HashMap::insert` of a fresh `Node`, unconditionally replacing any prior
entry.  `r` is the number of `Arc` clones of `v` the caller retains after
handing one to the cache (`CacheNode::new` stamps `Instant::now()`). -/
def insertOp (k : K) (v : V) (r : Nat) (s : CacheState K V) : CacheState K V :=
  { s with index := insertA s.index k (CacheEntry.Node ⟨v, s.now, r⟩) }

/-- Model of `Cache::try_evict_without_lock` (src/cache.rs lines 188-218),
one atomic step under the held lock: vacant returns `true`; a `Fetching`
entry is removed (`true`) — dropping the entry's clone of the sender, while
the producer keeps its own; a `Node` is `mem::replace`d with the sentinel
and `Arc::try_unwrap` attempted: with no external references the entry is
removed and the owned pair sent on `evict_tx` (`true`), otherwise the real
node is put back unchanged (`false`). -/
def tryEvictWithoutLock (k : K) (s : CacheState K V) : Bool × CacheState K V :=
  match lookupA s.index k with
  | none => (true, s)
  | some (CacheEntry.Fetching _) => (true, { s with index := eraseA s.index k })
  | some (CacheEntry.Node n) =>
      if n.extRefs = 0 then
        (true, { s with index := eraseA s.index k,
                        flushQ := s.flushQ ++ [(k, n.value)],
                        reclaimed := s.reclaimed ++ [(k, n.value)] })
      else (false, s)

/-- An external caller drops one of the `Arc` handles it got from `get` on
the value currently resident for `k` (no lock needed: only the atomic
reference count changes). -/
def releaseHandle (k : K) (s : CacheState K V) : CacheState K V :=
  match lookupA s.index k with
  | some (CacheEntry.Node n) =>
      if n.extRefs ≠ 0 then
        let n' := CacheEntry.Node { n with extRefs := n.extRefs - 1 }
        { s with index := insertA s.index k n' }
      else s
  | _ => s

/-- One key of a pruner pass (src/cache.rs lines 297-319): re-fetch the
entry; skip vacant and `Fetching` entries; skip a `Node` accessed less than
`ttl` ago (`Instant::duration_since` saturates at zero, as does `Nat`
subtraction); otherwise attempt the sentinel-replace / `Arc::try_unwrap`:
sole ownership removes the entry and sends the pair on the flush channel,
else the node is restored untouched. -/
def prunePassKey (ttl nowTs : Nat) (s : CacheState K V) (k : K) : CacheState K V :=
  match lookupA s.index k with
  | some (CacheEntry.Node n) =>
      if nowTs - n.lastAccessTs < ttl then s
      else if n.extRefs = 0 then
        { s with index := eraseA s.index k,
                 flushQ := s.flushQ ++ [(k, n.value)],
                 reclaimed := s.reclaimed ++ [(k, n.value)] }
      else s
  | _ => s

/-- One full pass of the pruner task (src/cache.rs lines 289-321): under
the lock, snapshot the keys and the clock once, then process every key of
the snapshot. -/
def prunePassNow (s : CacheState K V) : CacheState K V :=
  (s.index.map Prod.fst).foldl (prunePassKey s.accessTtl s.now) s

/-- The residue a pruner pass leaves for one key, as a function of the
entry alone — the specification proved of `prunePassNow`. -/
def pruneDecision (ttl nowTs : Nat) : Option (CacheEntry V) → Option (CacheEntry V)
  | none => none
  | some (CacheEntry.Fetching ch) => some (CacheEntry.Fetching ch)
  | some (CacheEntry.Node n) =>
      if nowTs - n.lastAccessTs < ttl then some (CacheEntry.Node n)
      else if n.extRefs = 0 then none
      else some (CacheEntry.Node n)

/-- The flush worker (src/cache.rs lines 273-282) consumes one queued pair:
`rx.recv()` then `store.update(k, v)`, modelled as one atomic dequeue-and-
update (its finer-grained structure is `EvStep` below). -/
def evictorStep (s : CacheState K V) : CacheState K V :=
  match s.flushQ with
  | [] => s
  | p :: rest => { s with flushQ := rest, updates := s.updates ++ [p] }

/-- One pass of the `evict_all_sync` drain loop body (src/cache.rs lines
232-240) over a snapshot of keys.  Rust's `all_done && self.try_evict…`
short-circuits: once one eviction fails, the remaining keys of the pass are
not attempted. -/
def drainPassKeys (s : CacheState K V) (ks : List K) : CacheState K V × Bool :=
  ks.foldl
    (fun p k =>
      if p.2 then
        let r := tryEvictWithoutLock k p.1
        (r.2, r.1)
      else p)
    (s, true)

/-- The retry loop of `evict_all_sync` (src/cache.rs lines 231-247), which
holds the index lock throughout — including across the 1 s sleep — so the
only concurrent activity between passes is external callers dropping `Arc`
handles, modelled by the release schedule `sched` (the keys whose handles
are dropped during the sleep before the pass at the given fuel).  `none`
models the documented livelock when external holders never release. -/
def drainLoop (sched : Nat → List K) : Nat → CacheState K V → Option (CacheState K V)
  | 0, _ => none
  | fuel + 1, s =>
      let ks := s.index.map Prod.fst
      if ks.isEmpty then some s
      else
        let r := drainPassKeys s ks
        if r.2 then some r.1
        else drainLoop sched fuel ((sched fuel).foldl (fun t k => releaseHandle k t) r.1)

/-- Model of `Cache::evict_all_sync` (src/cache.rs lines 226-271): run the
drain loop to emptiness, then rotate the flush pipeline — install a fresh
channel, a fresh pruner and a fresh evictor, abort the old pruner, drop the
old sender so the old evictor sees end-of-stream, and await it.  Joining
the old evictor means every pair still in the old queue has been passed to
`store.update`, in queue order. -/
def evictAllSync (fuel : Nat) (sched : Nat → List K) (s : CacheState K V) :
    Option (CacheState K V) :=
  (drainLoop sched fuel s).map fun s' =>
    { s' with updates := s'.updates ++ s'.flushQ, flushQ := [],
              prunerGen := s'.prunerGen + 1, evictorGen := s'.evictorGen + 1 }

/-- The events that can interleave on a cache, each one atomic critical
section (or lock-free refcount drop) of src/cache.rs. -/
inductive Op (K V : Type) where
  | get (k : K)
  | fin (k : K) (ch : Nat)
  | ins (k : K) (v : V) (r : Nat)
  | tryEv (k : K)
  | rel (k : K)
  | prune
  | evict1
  | tick (d : Nat)
  | drain (fuel : Nat) (sched : Nat → List K)

/-- Interpret one event.  `fin` fires only for an actually in-flight
producer; a `drain` that would livelock leaves the state unchanged (the
call never returns, so no later event of the same history can exist). -/
def applyOp (F : K → V) (s : CacheState K V) : Op K V → CacheState K V
  | Op.get k => (getStart k s).1
  | Op.fin k ch => if (k, ch) ∈ s.producers then producerFinish F k ch s else s
  | Op.ins k v r => insertOp k v r s
  | Op.tryEv k => (tryEvictWithoutLock k s).2
  | Op.rel k => releaseHandle k s
  | Op.prune => prunePassNow s
  | Op.evict1 => evictorStep s
  | Op.tick d => { s with now := s.now + d }
  | Op.drain fuel sched => (evictAllSync fuel sched s).getD s

/-- Run a history of events. -/
def runOps (F : K → V) (s : CacheState K V) (ops : List (Op K V)) : CacheState K V :=
  ops.foldl (applyOp F) s

/-- The value an event hands to `Cache::insert`, if it is an insert. -/
def insVal : Op K V → Option V
  | Op.ins _ v _ => some v
  | _ => none

/-- Fine-grained state of the flush worker task
(src/cache.rs lines 273-282): its input queue, the pair currently being
written (`store.update` in flight), the updates already delivered, whether
every sender of the queue has been dropped, and whether the task returned. -/
structure EvState (K V : Type) where
  queue : List (K × V)
  pending : Option (K × V)
  updates : List (K × V)
  closed : Bool
  terminated : Bool
deriving DecidableEq, Repr

/-- Small-step transitions of the flush worker loop
`while let Some((k, v)) = rx.recv().await { store.update(k, v).await }`:
dequeue the next pair only when no update is in flight, complete the
in-flight update, or return when the queue is closed and empty. -/
inductive EvStep {K V : Type} : EvState K V → EvState K V → Prop
  | dequeue (s : EvState K V) (p : K × V) (rest : List (K × V))
      (hterm : s.terminated = false) (hpend : s.pending = none) (hq : s.queue = p :: rest) :
      EvStep s { s with queue := rest, pending := some p }
  | complete (s : EvState K V) (p : K × V) (hpend : s.pending = some p) :
      EvStep s { s with pending := none, updates := s.updates ++ [p] }
  | finish (s : EvState K V) (hterm : s.terminated = false) (hpend : s.pending = none)
      (hq : s.queue = []) (hc : s.closed = true) :
      EvStep s { s with terminated := true }

/-- A freshly spawned flush worker on queue `q`. -/
def EvState.init (q : List (K × V)) (closed : Bool) : EvState K V :=
  { queue := q, pending := none, updates := [], closed := closed, terminated := false }

end Ops

section Lemmas

variable {K V : Type} [DecidableEq K]

theorem mem_of_lookupA {l : List (K × CacheEntry V)} {k : K} {e : CacheEntry V}
    (h : lookupA l k = some e) : (k, e) ∈ l := by
  induction l with
  | nil => cases h
  | cons p t ih =>
    obtain ⟨k₀, a⟩ := p
    by_cases hk : k₀ = k
    · subst hk
      have ha : a = e := by simpa using h
      subst ha
      exact List.mem_cons_self _ _
    · simp only [lookupA_cons, if_neg hk] at h
      exact List.mem_cons_of_mem _ (ih h)

theorem getStart_absent (k : K) (s : CacheState K V) (h : lookupA s.index k = none) :
    getStart k s =
      ({ s with index := insertA s.index k (CacheEntry.Fetching s.nextCh),
                channels := s.channels ++ [⟨1, ChannelOutcome.pending⟩],
                nextCh := s.nextCh + 1,
                producers := s.producers ++ [(k, s.nextCh)],
                fetches := s.fetches ++ [k] },
       GetOutcome.initiated s.nextCh) := by
  unfold getStart
  rw [h]

theorem getStart_fetching (k : K) (ch : Nat) (s : CacheState K V)
    (h : lookupA s.index k = some (CacheEntry.Fetching ch)) :
    getStart k s = ({ s with channels := chBump s.channels ch }, GetOutcome.attached ch) := by
  unfold getStart
  rw [h]

theorem getStart_node (k : K) (s : CacheState K V) (n : RealCacheNode V)
    (h : lookupA s.index k = some (CacheEntry.Node n)) :
    getStart k s =
      ({ s with
          index := insertA s.index k (CacheEntry.Node ⟨n.value, s.now, n.extRefs + 1⟩) },
       GetOutcome.hit n.value) := by
  unfold getStart
  rw [h]

theorem producerFinish_node (F : K → V) (k : K) (ch : Nat) (s : CacheState K V)
    (n : RealCacheNode V) (h : lookupA s.index k = some (CacheEntry.Node n)) :
    producerFinish F k ch s =
      { s with
          index := insertA s.index k
            (CacheEntry.Node ⟨n.value, s.now, n.extRefs + (chGet s.channels ch).subs⟩),
          channels := chSet s.channels ch (ChannelOutcome.sent n.value),
          producers := s.producers.filter (fun p => p ≠ (k, ch)) } := by
  unfold producerFinish
  rw [h]

theorem producerFinish_fetching (F : K → V) (k : K) (ch ch' : Nat) (s : CacheState K V)
    (h : lookupA s.index k = some (CacheEntry.Fetching ch')) :
    producerFinish F k ch s =
      { s with
          index := insertA s.index k
            (CacheEntry.Node ⟨F k, s.now, (chGet s.channels ch).subs⟩),
          channels := chSet s.channels ch (ChannelOutcome.sent (F k)),
          producers := s.producers.filter (fun p => p ≠ (k, ch)) } := by
  unfold producerFinish
  rw [h]

theorem producerFinish_vacant (F : K → V) (k : K) (ch : Nat) (s : CacheState K V)
    (h : lookupA s.index k = none) :
    producerFinish F k ch s =
      { s with
          index := insertA s.index k
            (CacheEntry.Node ⟨F k, s.now, (chGet s.channels ch).subs⟩),
          channels := chSet s.channels ch (ChannelOutcome.sent (F k)),
          producers := s.producers.filter (fun p => p ≠ (k, ch)) } := by
  unfold producerFinish
  rw [h]

theorem chGet_chSet_ne {cs : List (ChannelState V)} {i j : Nat} (o : ChannelOutcome V)
    (h : j ≠ i) : chGet (chSet cs i o) j = chGet cs j := by
  induction cs generalizing i j with
  | nil => cases i <;> rfl
  | cons c t ih =>
    cases i with
    | zero =>
      cases j with
      | zero => exact absurd rfl h
      | succ j' => rfl
    | succ i' =>
      cases j with
      | zero => rfl
      | succ j' =>
        simp only [chSet, chGet, List.get?]
        exact ih (fun hh => h (congrArg Nat.succ hh))

end Lemmas

section MainTheorems

variable {K V : Type} [DecidableEq K]

/-- C2: contract of `try_evict(k)` (src/cache.rs lines 188-218): on an
absent key it returns true and changes nothing; on a `Fetching` entry it
removes the entry and returns true; on a `Node` whose handle has no
external reference it removes the entry, sends the owned pair to the flush
queue, and returns true; on a `Node` with a live external handle it leaves
the state untouched and returns false — and since releasing every handle
makes the reference count one, the zero-external-references conjunct is
exactly the guarantee that a subsequent `try_evict(k)` succeeds once all
handles from prior `get(k)` calls are dropped. -/
theorem C2_tryEvict_contract (s : CacheState K V) (k : K) :
    (lookupA s.index k = none → tryEvictWithoutLock k s = (true, s))
    ∧ (∀ ch, lookupA s.index k = some (CacheEntry.Fetching ch) →
        (tryEvictWithoutLock k s).1 = true
        ∧ lookupA (tryEvictWithoutLock k s).2.index k = none
        ∧ (tryEvictWithoutLock k s).2.flushQ = s.flushQ)
    ∧ (∀ n : RealCacheNode V, lookupA s.index k = some (CacheEntry.Node n) → n.extRefs = 0 →
        (tryEvictWithoutLock k s).1 = true
        ∧ lookupA (tryEvictWithoutLock k s).2.index k = none
        ∧ (tryEvictWithoutLock k s).2.flushQ = s.flushQ ++ [(k, n.value)])
    ∧ (∀ n : RealCacheNode V, lookupA s.index k = some (CacheEntry.Node n) → n.extRefs ≠ 0 →
        tryEvictWithoutLock k s = (false, s)) := by
  refine ⟨fun h => ?_, fun ch h => ?_, fun n h h0 => ?_, fun n h h0 => ?_⟩
  · simp [tryEvictWithoutLock, h]
  · simp [tryEvictWithoutLock, h]
  · simp [tryEvictWithoutLock, h, h0]
  · simp [tryEvictWithoutLock, h, h0]

/-- Witness for C2 at the four concrete shapes of the contract. -/
theorem C2_tryEvict_contract_witness :
    (tryEvictWithoutLock 1 (CacheState.new Nat Nat) = (true, CacheState.new Nat Nat))
    ∧ ((tryEvictWithoutLock 1
        { CacheState.new Nat Nat with index := [(1, CacheEntry.Fetching 0)] }).1 = true)
    ∧ ((tryEvictWithoutLock 1
        { CacheState.new Nat Nat with index := [(1, CacheEntry.Node ⟨5, 0, 0⟩)] }).2.flushQ
          = [(1, 5)])
    ∧ (tryEvictWithoutLock 1
        { CacheState.new Nat Nat with index := [(1, CacheEntry.Node ⟨5, 0, 2⟩)] }
          = (false, { CacheState.new Nat Nat with index := [(1, CacheEntry.Node ⟨5, 0, 2⟩)] })) :=
  ⟨(C2_tryEvict_contract (CacheState.new Nat Nat) 1).1 (by decide),
   ((C2_tryEvict_contract
      { CacheState.new Nat Nat with index := [(1, CacheEntry.Fetching 0)] } 1).2.1
      0 (by decide)).1,
   (((C2_tryEvict_contract
      { CacheState.new Nat Nat with index := [(1, CacheEntry.Node ⟨5, 0, 0⟩)] } 1).2.2.1
      ⟨5, 0, 0⟩ (by decide) (by decide)).2.2).trans (by decide),
   (C2_tryEvict_contract
      { CacheState.new Nat Nat with index := [(1, CacheEntry.Node ⟨5, 0, 2⟩)] } 1).2.2.2
      ⟨5, 0, 2⟩ (by decide) (by decide)⟩

/-- C3: insert-wins-race (src/cache.rs lines 136-151 and 179-184).  If an
`insert(k, v′)` lands between the fetch's start and its publish, the
producer's publish step finds the slot occupied by a `Node`: it keeps v′
and bumps `last_access_ts` (adding one external reference per waiter it is
about to serve), broadcasts v′ — not the fetched value — on its channel,
leaves every other channel and the flush queue and the update trace
untouched, and a subsequent `get(k)` hits v′. -/
theorem C3_insert_wins (F : K → V) (s : CacheState K V) (k : K) (ch : Nat)
    (n : RealCacheNode V)
    (hn : lookupA s.index k = some (CacheEntry.Node n))
    (hch : ch < s.channels.length) :
    lookupA (producerFinish F k ch s).index k
      = some (CacheEntry.Node ⟨n.value, s.now, n.extRefs + (chGet s.channels ch).subs⟩)
    ∧ (chGet (producerFinish F k ch s).channels ch).outcome = ChannelOutcome.sent n.value
    ∧ (producerFinish F k ch s).flushQ = s.flushQ
    ∧ (producerFinish F k ch s).updates = s.updates
    ∧ (producerFinish F k ch s).fetches = s.fetches
    ∧ (∀ ch', ch' ≠ ch → chGet (producerFinish F k ch s).channels ch' = chGet s.channels ch')
    ∧ (getStart k (producerFinish F k ch s)).2 = GetOutcome.hit n.value := by
  rw [producerFinish_node F k ch s n hn]
  refine ⟨by simp, ?_, rfl, rfl, rfl, fun ch' hne => ?_, ?_⟩
  · simpa using congrArg ChannelState.outcome
      (chGet_chSet_self s.channels ch (ChannelOutcome.sent n.value) hch)
  · exact chGet_chSet_ne _ hne
  · rw [getStart_node _ _ ⟨n.value, s.now, n.extRefs + (chGet s.channels ch).subs⟩ (by simp)]

/-- Witness for C3: a producer finishing after `insert(7, 50)` replaced its
`Fetching` slot broadcasts 50, not the fetched 9. -/
theorem C3_insert_wins_witness :
    lookupA (producerFinish (fun _ => 9) 7 0
        { CacheState.new Nat Nat with
            index := [(7, CacheEntry.Node ⟨50, 3, 0⟩)], now := 4,
            channels := [⟨1, ChannelOutcome.pending⟩], nextCh := 1,
            producers := [(7, 0)] }).index 7
      = some (CacheEntry.Node ⟨50, 4, 1⟩)
    ∧ (chGet (producerFinish (fun _ => 9) 7 0
        { CacheState.new Nat Nat with
            index := [(7, CacheEntry.Node ⟨50, 3, 0⟩)], now := 4,
            channels := [⟨1, ChannelOutcome.pending⟩], nextCh := 1,
            producers := [(7, 0)] }).channels 0).outcome = ChannelOutcome.sent 50 := by
  have h := C3_insert_wins (fun _ => 9)
    { CacheState.new Nat Nat with
        index := [(7, CacheEntry.Node ⟨50, 3, 0⟩)], now := 4,
        channels := [⟨1, ChannelOutcome.pending⟩], nextCh := 1,
        producers := [(7, 0)] } 7 0 ⟨50, 3, 0⟩ (by decide) (by decide)
  exact ⟨h.1, h.2.1⟩

/-- C5: eviction during a fetch is benign (src/cache.rs lines 152-161).
If the entry for `k` is removed between the store fetch and the publish,
the publish step finds the slot vacant, installs a fresh `Node` holding the
fetched value, and broadcasts that value to its waiters; nothing is pushed
to the flush queue or to the store, and no other channel changes, so the
fetched value is neither lost nor double-handled. -/
theorem C5_evict_during_fetch (F : K → V) (s : CacheState K V) (k : K) (ch : Nat)
    (hvac : lookupA s.index k = none)
    (hch : ch < s.channels.length) :
    lookupA (producerFinish F k ch s).index k
      = some (CacheEntry.Node ⟨F k, s.now, (chGet s.channels ch).subs⟩)
    ∧ (chGet (producerFinish F k ch s).channels ch).outcome = ChannelOutcome.sent (F k)
    ∧ (producerFinish F k ch s).flushQ = s.flushQ
    ∧ (producerFinish F k ch s).updates = s.updates
    ∧ (∀ ch', ch' ≠ ch → chGet (producerFinish F k ch s).channels ch' = chGet s.channels ch')
    ∧ (getStart k (producerFinish F k ch s)).2 = GetOutcome.hit (F k) := by
  rw [producerFinish_vacant F k ch s hvac]
  refine ⟨by simp, ?_, rfl, rfl, fun ch' hne => ?_, ?_⟩
  · simpa using congrArg ChannelState.outcome
      (chGet_chSet_self s.channels ch (ChannelOutcome.sent (F k)) hch)
  · exact chGet_chSet_ne _ hne
  · rw [getStart_node _ _ ⟨F k, s.now, (chGet s.channels ch).subs⟩ (by simp)]

/-- Witness for C5: a producer publishing after its entry was evicted
recreates the slot with the fetched value 9 and broadcasts it. -/
theorem C5_evict_during_fetch_witness :
    lookupA (producerFinish (fun _ => 9) 3 0
        { CacheState.new Nat Nat with
            channels := [⟨1, ChannelOutcome.pending⟩], nextCh := 1,
            producers := [(3, 0)] }).index 3
      = some (CacheEntry.Node ⟨9, 0, 1⟩)
    ∧ (chGet (producerFinish (fun _ => 9) 3 0
        { CacheState.new Nat Nat with
            channels := [⟨1, ChannelOutcome.pending⟩], nextCh := 1,
            producers := [(3, 0)] }).channels 0).outcome = ChannelOutcome.sent 9 := by
  have h := C5_evict_during_fetch (fun _ => 9)
    { CacheState.new Nat Nat with
        channels := [⟨1, ChannelOutcome.pending⟩], nextCh := 1,
        producers := [(3, 0)] } 3 0 (by decide) (by decide)
  exact ⟨h.1, h.2.1⟩

/-- Cold cache after one `get 0`: the entry is `Fetching 0`, the producer
`(0, 0)` is in flight, and the caller is the one subscriber of channel 0. -/
def c8state1 : CacheState Nat Nat := (getStart 0 (CacheState.new Nat Nat)).1

/-- `try_evict(0)` removes the `Fetching` entry of `c8state1`. -/
def c8state2 : CacheState Nat Nat := (tryEvictWithoutLock 0 c8state1).2

/-- The producer (fetch result 42) then publishes into the vacated slot. -/
def c8state3 : CacheState Nat Nat := producerFinish (fun _ => 42) 0 0 c8state2

/-- C8 counterexample: evicting a `Fetching` entry drops only the entry's
clone of the `broadcast::Sender`; the producer spawned by `get` still holds
its own sender and always sends (src/cache.rs line 161).  In this concrete
run the subscriber that had not yet received a value when `try_evict`
succeeded receives the published 42 — it does not observe a closed
channel, contradicting the claim. -/
theorem C8_counterexample :
    lookupA c8state1.index 0 = some (CacheEntry.Fetching 0)
    ∧ (0, 0) ∈ c8state1.producers
    ∧ (chGet c8state1.channels 0).subs = 1
    ∧ (tryEvictWithoutLock 0 c8state1).1 = true
    ∧ (chGet c8state2.channels 0).outcome = ChannelOutcome.pending
    ∧ (chGet c8state3.channels 0).outcome = ChannelOutcome.sent 42
    ∧ (chGet c8state3.channels 0).outcome ≠ ChannelOutcome.closed
    ∧ resultOf c8state3 (GetOutcome.attached 0) = some 42 := by
  decide

/-- C8 amended: when `try_evict` removes a `Fetching` entry for `k`, the
entry's clone of the notifier sender is dropped, but the in-flight producer
still holds a sender, so a subscriber that has not yet received a value
does not observe a closed channel: its channel stays open and delivers the
value the producer publishes. -/
theorem C8_evict_fetching_amended (F : K → V) (s : CacheState K V) (k : K) (ch : Nat)
    (hf : lookupA s.index k = some (CacheEntry.Fetching ch))
    (hp : (k, ch) ∈ s.producers)
    (hch : ch < s.channels.length)
    (hpend : (chGet s.channels ch).outcome = ChannelOutcome.pending) :
    (tryEvictWithoutLock k s).1 = true
    ∧ lookupA (tryEvictWithoutLock k s).2.index k = none
    ∧ (tryEvictWithoutLock k s).2.channels = s.channels
    ∧ (chGet (producerFinish F k ch (tryEvictWithoutLock k s).2).channels ch).outcome
        = ChannelOutcome.sent (F k) := by
  have hev : tryEvictWithoutLock k s = (true, { s with index := eraseA s.index k }) := by
    unfold tryEvictWithoutLock
    rw [hf]
  rw [hev]
  refine ⟨rfl, by simp, rfl, ?_⟩
  rw [producerFinish_vacant F k ch _ (by simpa using lookupA_eraseA_self s.index k)]
  simpa using congrArg ChannelState.outcome
    (chGet_chSet_self s.channels ch (ChannelOutcome.sent (F k)) hch)

/-- Witness for the amended C8 at the concrete cold-get state. -/
theorem C8_evict_fetching_amended_witness :
    (tryEvictWithoutLock 0 c8state1).1 = true
    ∧ (chGet (producerFinish (fun _ => 42) 0 0
        (tryEvictWithoutLock 0 c8state1).2).channels 0).outcome
      = ChannelOutcome.sent 42 :=
  ⟨(C8_evict_fetching_amended (fun _ => 42) c8state1 0 0 (by decide) (by decide)
      (by decide) (by decide)).1,
   (C8_evict_fetching_amended (fun _ => 42) c8state1 0 0 (by decide) (by decide)
      (by decide) (by decide)).2.2.2⟩

/-- C9 counterexample: the spec's constructor `new(store, access_ttl?)`
honors an optional idle TTL, but the source `Cache::new` (src/cache.rs
line 99) takes only the store and hard-codes `access_ttl` to 10 s
(line 108), so the cache the spec says `new` can build with a 5 s TTL
differs from the only cache the source's `new` produces. -/
theorem C9_counterexample :
    (newSpec Nat Nat (some 5)).accessTtl = 5
    ∧ (CacheState.new Nat Nat).accessTtl = 10
    ∧ newSpec Nat Nat (some 5) ≠ CacheState.new Nat Nat := by
  decide

/-- C9 amended: `new` accepts only the store; the `access_ttl` of every
cache it builds is fixed at 10 s (which coincides with the spec's default),
and the pruner's scan period is the hard-coded 10 s sleep of
src/cache.rs line 322, not a recognized configuration option. -/
theorem C9_amended (K V : Type) :
    (CacheState.new K V).accessTtl = 10
    ∧ (newSpec K V none).accessTtl = 10
    ∧ prunerSleepSecs = 10 :=
  ⟨rfl, rfl, rfl⟩

/-- Witness for the amended C9 at concrete key/value types. -/
theorem C9_amended_witness :
    (CacheState.new Nat Nat).accessTtl = 10 ∧ prunerSleepSecs = 10 :=
  ⟨(C9_amended Nat Nat).1, (C9_amended Nat Nat).2.2⟩

end MainTheorems

section Pruner

variable {K V : Type} [DecidableEq K]

theorem prunePassKey_lookup_ne (ttl nowTs : Nat) (s : CacheState K V) (k k' : K)
    (h : k' ≠ k) :
    lookupA (prunePassKey ttl nowTs s k).index k' = lookupA s.index k' := by
  unfold prunePassKey
  cases hl : lookupA s.index k with
  | none => rfl
  | some e =>
    cases e with
    | Fetching ch => rfl
    | Node n =>
      by_cases h1 : nowTs - n.lastAccessTs < ttl
      · simp [h1]
      · by_cases h2 : n.extRefs = 0
        · simp [h1, h2, lookupA_eraseA_ne _ _ _ h]
        · simp [h1, h2]

theorem prunePassKey_lookup_self (ttl nowTs : Nat) (s : CacheState K V) (k : K) :
    lookupA (prunePassKey ttl nowTs s k).index k
      = pruneDecision ttl nowTs (lookupA s.index k) := by
  unfold prunePassKey pruneDecision
  cases hl : lookupA s.index k with
  | none => exact hl
  | some e =>
    cases e with
    | Fetching ch => exact hl
    | Node n =>
      by_cases h1 : nowTs - n.lastAccessTs < ttl
      · simpa [h1] using hl
      · by_cases h2 : n.extRefs = 0
        · simp [h1, h2]
        · simpa [h1, h2] using hl

theorem prunePassKey_frame (ttl nowTs : Nat) (s : CacheState K V) (k : K) :
    (prunePassKey ttl nowTs s k).updates = s.updates
    ∧ (prunePassKey ttl nowTs s k).fetches = s.fetches
    ∧ (prunePassKey ttl nowTs s k).producers = s.producers
    ∧ (prunePassKey ttl nowTs s k).channels = s.channels := by
  unfold prunePassKey
  cases lookupA s.index k with
  | none => exact ⟨rfl, rfl, rfl, rfl⟩
  | some e =>
    cases e with
    | Fetching ch => exact ⟨rfl, rfl, rfl, rfl⟩
    | Node n =>
      by_cases h1 : nowTs - n.lastAccessTs < ttl
      · simp [h1]
      · by_cases h2 : n.extRefs = 0 <;> simp [h1, h2]

theorem prunePassKey_flush (ttl nowTs : Nat) (s : CacheState K V) (a : K) :
    ∀ p ∈ (prunePassKey ttl nowTs s a).flushQ,
      p ∈ s.flushQ
      ∨ ∃ n : RealCacheNode V, lookupA s.index a = some (CacheEntry.Node n)
          ∧ p = (a, n.value) ∧ n.extRefs = 0 ∧ ¬ (nowTs - n.lastAccessTs < ttl) := by
  unfold prunePassKey
  cases hl : lookupA s.index a with
  | none => exact fun p hp => Or.inl hp
  | some e =>
    cases e with
    | Fetching ch => exact fun p hp => Or.inl hp
    | Node n =>
      by_cases h1 : nowTs - n.lastAccessTs < ttl
      · simp only [h1, if_true]
        exact fun p hp => Or.inl hp
      · by_cases h2 : n.extRefs = 0
        · simp only [h1, if_false, h2, if_true]
          intro p hp
          rcases List.mem_append.mp hp with hp | hp
          · exact Or.inl hp
          · exact Or.inr ⟨n, rfl, by simpa using hp, h2, h1⟩
        · simp only [h1, if_false, h2]
          exact fun p hp => Or.inl hp

theorem pruneFold_lookup_not_mem (ttl nowTs : Nat) (ks : List K) (s : CacheState K V)
    (k : K) (h : k ∉ ks) :
    lookupA (ks.foldl (prunePassKey ttl nowTs) s).index k = lookupA s.index k := by
  induction ks generalizing s with
  | nil => rfl
  | cons a t ih =>
    simp only [List.mem_cons] at h
    push_neg at h
    rw [List.foldl_cons, ih _ h.2, prunePassKey_lookup_ne _ _ _ _ _ h.1]

theorem pruneFold_lookup_mem (ttl nowTs : Nat) (ks : List K) (s : CacheState K V)
    (k : K) (hmem : k ∈ ks) (hnd : ks.Nodup) :
    lookupA (ks.foldl (prunePassKey ttl nowTs) s).index k
      = pruneDecision ttl nowTs (lookupA s.index k) := by
  induction ks generalizing s with
  | nil => cases hmem
  | cons a t ih =>
    rw [List.nodup_cons] at hnd
    rw [List.foldl_cons]
    rcases List.mem_cons.mp hmem with hk | hk
    · subst hk
      rw [pruneFold_lookup_not_mem _ _ _ _ _ hnd.1, prunePassKey_lookup_self]
    · have hka : k ≠ a := fun hh => hnd.1 (hh ▸ hk)
      rw [ih _ hk hnd.2, prunePassKey_lookup_ne _ _ _ _ _ hka]

/-- The provenance a pruner pass guarantees for a pair it enqueues: it was
the value of a resident entry whose idle time had reached the TTL and whose
handle had no external reference. -/
def pruneSource (ttl nowTs : Nat) (s0 : CacheState K V) (p : K × V) : Prop :=
  ∃ n : RealCacheNode V, lookupA s0.index p.1 = some (CacheEntry.Node n)
    ∧ n.value = p.2 ∧ n.extRefs = 0 ∧ ttl ≤ nowTs - n.lastAccessTs

theorem pruneFold_flush (ttl nowTs : Nat) (s0 : CacheState K V) (ks : List K) :
    ks.Nodup →
    ∀ s : CacheState K V,
      (∀ p ∈ s.flushQ, p ∈ s0.flushQ ∨ pruneSource ttl nowTs s0 p) →
      (∀ k ∈ ks, lookupA s.index k = lookupA s0.index k) →
      ∀ p ∈ (ks.foldl (prunePassKey ttl nowTs) s).flushQ,
        p ∈ s0.flushQ ∨ pruneSource ttl nowTs s0 p := by
  induction ks with
  | nil => exact fun _ s hQ _ p hp => hQ p hp
  | cons a t ih =>
    intro hnd s hQ hidx
    rw [List.nodup_cons] at hnd
    rw [List.foldl_cons]
    refine ih hnd.2 _ ?_ ?_
    · intro p hp
      rcases prunePassKey_flush ttl nowTs s a p hp with hp | ⟨n, hl, hpe, h0, hfresh⟩
      · exact hQ p hp
      · refine Or.inr ⟨n, ?_, by rw [hpe], h0, Nat.le_of_not_lt hfresh⟩
        rw [hpe]
        exact (hidx a (List.mem_cons_self _ _)) ▸ hl
    · intro k hk
      have hka : k ≠ a := fun hh => hnd.1 (hh ▸ hk)
      rw [prunePassKey_lookup_ne _ _ _ _ _ hka]
      exact hidx k (List.mem_cons_of_mem _ hk)

theorem pruneFold_frame (ttl nowTs : Nat) (ks : List K) :
    ∀ s : CacheState K V,
      ((ks.foldl (prunePassKey ttl nowTs) s).updates = s.updates)
      ∧ ((ks.foldl (prunePassKey ttl nowTs) s).fetches = s.fetches)
      ∧ ((ks.foldl (prunePassKey ttl nowTs) s).producers = s.producers)
      ∧ ((ks.foldl (prunePassKey ttl nowTs) s).channels = s.channels) := by
  induction ks with
  | nil => exact fun s => ⟨rfl, rfl, rfl, rfl⟩
  | cons a t ih =>
    intro s
    obtain ⟨f1, f2, f3, f4⟩ := prunePassKey_frame ttl nowTs s a
    obtain ⟨g1, g2, g3, g4⟩ := ih (prunePassKey ttl nowTs s a)
    exact ⟨g1.trans f1, g2.trans f2, g3.trans f3, g4.trans f4⟩

end Pruner

section PrunerTheorems

variable {K V : Type} [DecidableEq K]

/-- C6: frame condition of one pruner pass (src/cache.rs lines 284-325).
For every key, the entry left by the pass is exactly `pruneDecision` of the
entry before it: a `Fetching` entry is skipped, a `Node` accessed less than
`access_ttl` ago or still externally referenced is left unchanged, and a
`Node` is removed precisely when it is idle for at least `access_ttl` and
the cache's handle is the sole reference.  Every pair the pass adds to the
flush queue comes from such a removed entry, and the pass touches neither
the update/fetch traces nor the producers nor the channels. -/
theorem C6_pruner_frame (s : CacheState K V) (hnd : (s.index.map Prod.fst).Nodup) :
    (∀ k, lookupA (prunePassNow s).index k
        = pruneDecision s.accessTtl s.now (lookupA s.index k))
    ∧ (∀ p ∈ (prunePassNow s).flushQ,
        p ∈ s.flushQ ∨ pruneSource s.accessTtl s.now s p)
    ∧ (prunePassNow s).updates = s.updates
    ∧ (prunePassNow s).fetches = s.fetches
    ∧ (prunePassNow s).producers = s.producers
    ∧ (prunePassNow s).channels = s.channels := by
  obtain ⟨f1, f2, f3, f4⟩ := pruneFold_frame s.accessTtl s.now (s.index.map Prod.fst) s
  refine ⟨fun k => ?_,
    pruneFold_flush s.accessTtl s.now s _ hnd s (fun p hp => Or.inl hp) (fun _ _ => rfl),
    f1, f2, f3, f4⟩
  by_cases hk : k ∈ s.index.map Prod.fst
  · exact pruneFold_lookup_mem _ _ _ _ _ hk hnd
  · rw [prunePassNow, pruneFold_lookup_not_mem _ _ _ _ _ hk,
      lookupA_eq_none_of_not_mem_keys hk]
    rfl

/-- Concrete pruner-pass state: with `access_ttl = 10` and `now = 20`, key 1
is idle and unpinned, key 2 is fresh, key 3 is idle but pinned, key 4 is
mid-fetch. -/
def c6ex : CacheState Nat Nat :=
  { CacheState.new Nat Nat with
      now := 20,
      index := [(1, CacheEntry.Node ⟨100, 0, 0⟩), (2, CacheEntry.Node ⟨101, 15, 0⟩),
                (3, CacheEntry.Node ⟨102, 0, 1⟩), (4, CacheEntry.Fetching 0)] }

/-- Witness for C6: the pass reclaims exactly the idle unpinned entry and
leaves the fresh, pinned and fetching entries in place. -/
theorem C6_pruner_frame_witness :
    lookupA (prunePassNow c6ex).index 1 = none
    ∧ lookupA (prunePassNow c6ex).index 2 = some (CacheEntry.Node ⟨101, 15, 0⟩)
    ∧ lookupA (prunePassNow c6ex).index 3 = some (CacheEntry.Node ⟨102, 0, 1⟩)
    ∧ lookupA (prunePassNow c6ex).index 4 = some (CacheEntry.Fetching 0) := by
  have h := C6_pruner_frame c6ex (by decide)
  exact ⟨(h.1 1).trans (by decide), (h.1 2).trans (by decide),
    (h.1 3).trans (by decide), (h.1 4).trans (by decide)⟩

end PrunerTheorems

section SingleFlight

variable {K V : Type} [DecidableEq K]

theorem getN_fetching (k : K) (ch : Nat) (m : Nat) (s : CacheState K V)
    (h : lookupA s.index k = some (CacheEntry.Fetching ch)) :
    (getN k m s).2 = List.replicate m (GetOutcome.attached ch)
    ∧ (getN k m s).1.index = s.index
    ∧ (getN k m s).1.fetches = s.fetches
    ∧ (getN k m s).1.producers = s.producers
    ∧ (getN k m s).1.channels.length = s.channels.length
    ∧ (getN k m s).1.nextCh = s.nextCh
    ∧ (getN k m s).1.now = s.now := by
  induction m generalizing s with
  | zero => exact ⟨rfl, rfl, rfl, rfl, rfl, rfl, rfl⟩
  | succ n ih =>
    have hstep := getStart_fetching k ch s h
    have h' : lookupA ({ s with channels := chBump s.channels ch } : CacheState K V).index k
        = some (CacheEntry.Fetching ch) := h
    obtain ⟨o1, o2, o3, o4, o5, o6, o7⟩ := ih _ h'
    refine ⟨?_, ?_, ?_, ?_, ?_, ?_, ?_⟩
    · simp only [getN, hstep, o1, List.replicate_succ]
    · simp only [getN, hstep, o2]
    · simp only [getN, hstep, o3]
    · simp only [getN, hstep, o4]
    · simp only [getN, hstep]
      rw [o5]
      simp
    · simp only [getN, hstep, o6]
    · simp only [getN, hstep, o7]

/-- C1: single-flight (src/cache.rs lines 122-177).  From any state in
which `k` is absent, a batch of `m + 1` concurrent `get(k)` critical
sections consists of exactly one that inserts the `Fetching` entry and
spawns a producer — whose first action invokes the store's `fetch` with
`k`, the only fetch the batch adds — while the other `m` merely subscribe
to that producer's notifier; and once the producer publishes, every one of
the `m + 1` callers receives a handle to the same fetched value `F k`. -/
theorem C1_single_flight (F : K → V) (s : CacheState K V) (k : K) (m : Nat)
    (habs : lookupA s.index k = none)
    (hlen : s.channels.length = s.nextCh) :
    (getN k (m + 1) s).2
      = GetOutcome.initiated s.nextCh :: List.replicate m (GetOutcome.attached s.nextCh)
    ∧ (getN k (m + 1) s).1.fetches = s.fetches ++ [k]
    ∧ (getN k (m + 1) s).1.producers = s.producers ++ [(k, s.nextCh)]
    ∧ ∀ o ∈ (getN k (m + 1) s).2,
        resultOf (producerFinish F k s.nextCh (getN k (m + 1) s).1) o = some (F k) := by
  have hstep := getStart_absent k s habs
  set s₁ : CacheState K V :=
    { s with index := insertA s.index k (CacheEntry.Fetching s.nextCh),
             channels := s.channels ++ [⟨1, ChannelOutcome.pending⟩],
             nextCh := s.nextCh + 1,
             producers := s.producers ++ [(k, s.nextCh)],
             fetches := s.fetches ++ [k] } with hs₁
  have h₁ : lookupA s₁.index k = some (CacheEntry.Fetching s.nextCh) := by
    rw [hs₁]
    simp
  obtain ⟨o1, o2, o3, o4, o5, o6, o7⟩ := getN_fetching k s.nextCh m s₁ h₁
  have hunf : getN k (m + 1) s = ((getN k m s₁).1, GetOutcome.initiated s.nextCh :: (getN k m s₁).2) := by
    simp only [getN, hstep]
  have hchlt : s.nextCh < (getN k m s₁).1.channels.length := by
    rw [o5, hs₁]
    simp [hlen]
  have hfin : lookupA (getN k m s₁).1.index k = some (CacheEntry.Fetching s.nextCh) := by
    rw [o2]
    exact h₁
  have hpub := producerFinish_fetching F k s.nextCh s.nextCh (getN k m s₁).1 hfin
  have houtc : (chGet (producerFinish F k s.nextCh (getN k m s₁).1).channels s.nextCh).outcome
      = ChannelOutcome.sent (F k) := by
    rw [hpub]
    simpa using congrArg ChannelState.outcome
      (chGet_chSet_self (getN k m s₁).1.channels s.nextCh (ChannelOutcome.sent (F k)) hchlt)
  refine ⟨by rw [hunf, o1], ?_, ?_, ?_⟩
  · rw [hunf]
    rw [o3, hs₁]
  · rw [hunf]
    rw [o4, hs₁]
  · rw [hunf]
    intro o ho
    rcases List.mem_cons.mp ho with ho | ho
    · subst ho
      simp only [resultOf, houtc]
    · rw [o1] at ho
      have := List.eq_of_mem_replicate ho
      subst this
      simp only [resultOf, houtc]

/-- Witness for C1: two concurrent cold `get 0` calls on a fresh cache
cause one fetch and both receive the fetched 7. -/
theorem C1_single_flight_witness :
    (getN 0 2 (CacheState.new Nat Nat)).2
      = [GetOutcome.initiated 0, GetOutcome.attached 0]
    ∧ (getN 0 2 (CacheState.new Nat Nat)).1.fetches = [0]
    ∧ resultOf (producerFinish (fun _ => 7) 0 0 (getN 0 2 (CacheState.new Nat Nat)).1)
        (GetOutcome.attached 0) = some 7 := by
  have h := C1_single_flight (fun _ => 7) (CacheState.new Nat Nat) 0 1 (by decide) (by decide)
  exact ⟨h.1, h.2.1, h.2.2.2 (GetOutcome.attached 0) (by rw [h.1]; decide)⟩

end SingleFlight

section FlushWorker

variable {K V : Type}

theorem evStep_invariant {q : List (K × V)} {c : Bool} {s t : EvState K V}
    (hstep : EvStep s t)
    (hinv : s.updates ++ s.pending.toList ++ s.queue = q ∧ s.closed = c
      ∧ (s.terminated = true →
          s.pending = none ∧ s.queue = [] ∧ s.updates = q ∧ c = true)) :
    t.updates ++ t.pending.toList ++ t.queue = q ∧ t.closed = c
      ∧ (t.terminated = true →
          t.pending = none ∧ t.queue = [] ∧ t.updates = q ∧ c = true) := by
  obtain ⟨h1, h2, h3⟩ := hinv
  cases hstep with
  | dequeue p rest hterm hpend hq =>
    refine ⟨?_, h2, ?_⟩
    · rw [hpend, hq] at h1
      simpa using h1
    · intro ht
      rw [show ({ s with queue := rest, pending := some p } : EvState K V).terminated
          = s.terminated from rfl, hterm] at ht
      cases ht
  | complete p hpend =>
    refine ⟨?_, h2, ?_⟩
    · rw [hpend] at h1
      simpa using h1
    · intro ht
      obtain ⟨hp0, _, _, _⟩ := h3 ht
      rw [hp0] at hpend
      cases hpend
  | finish hterm hpend hq hc =>
    refine ⟨h1, h2, fun _ => ⟨hpend, hq, ?_, ?_⟩⟩
    · rw [hpend, hq] at h1
      simpa using h1
    · rw [h2] at hc
      exact hc

/-- C7: the flush worker (src/cache.rs lines 273-282) is the sequential
loop `while let Some((k, v)) = rx.recv().await { store.update(k, v).await }`:
at every reachable state the updates already delivered, the pair currently
being written (at most one, and none while dequeueing), and the remaining
queue concatenate — in order — to the original FIFO queue; if the worker
has terminated, its queue was closed and empty, no update was in flight,
and the store received exactly the queued pairs in queue order; conversely
whenever the queue is closed and empty and nothing is in flight, the
terminating step is enabled. -/
theorem C7_flush_worker (q : List (K × V)) (c : Bool) (t : EvState K V)
    (h : Relation.ReflTransGen EvStep (EvState.init q c) t) :
    t.updates ++ t.pending.toList ++ t.queue = q
    ∧ (t.terminated = true → t.queue = [] ∧ t.pending = none ∧ t.updates = q ∧ c = true)
    ∧ (t.terminated = false → t.closed = true → t.queue = [] → t.pending = none →
        EvStep t { t with terminated := true }) := by
  have hinv : t.updates ++ t.pending.toList ++ t.queue = q ∧ t.closed = c
      ∧ (t.terminated = true →
          t.pending = none ∧ t.queue = [] ∧ t.updates = q ∧ c = true) := by
    induction h with
    | refl =>
      refine ⟨by simp [EvState.init], rfl, fun ht => ?_⟩
      cases ht
    | tail hab hbc ih => exact evStep_invariant hbc ih
  refine ⟨hinv.1, fun ht => ?_, fun hterm hc hq hp => EvStep.finish t hterm hp hq hc⟩
  obtain ⟨hp0, hq0, hu0, hc0⟩ := hinv.2.2 ht
  exact ⟨hq0, hp0, hu0, hc0⟩

/-- Fresh flush worker on the closed one-element queue `[(1, 5)]`. -/
def evW0 : EvState Nat Nat := EvState.init [(1, 5)] true

/-- After `rx.recv()` returned `(1, 5)`: the update is in flight. -/
def evW1 : EvState Nat Nat := { evW0 with queue := [], pending := some (1, 5) }

/-- After `store.update(1, 5)` completed. -/
def evW2 : EvState Nat Nat := { evW1 with pending := none, updates := evW1.updates ++ [(1, 5)] }

/-- After the worker observed the closed empty queue and returned. -/
def evW3 : EvState Nat Nat := { evW2 with terminated := true }

/-- Witness for C7 along the concrete dequeue/update/terminate run. -/
theorem C7_flush_worker_witness : evW3.updates = [(1, 5)] ∧ evW3.queue = [] := by
  have htr : Relation.ReflTransGen EvStep evW0 evW3 :=
    Relation.ReflTransGen.tail
      (Relation.ReflTransGen.tail
        (Relation.ReflTransGen.tail Relation.ReflTransGen.refl
          (EvStep.dequeue evW0 (1, 5) [] rfl rfl rfl))
        (EvStep.complete evW1 (1, 5) rfl))
      (EvStep.finish evW2 rfl rfl rfl rfl)
  have h := C7_flush_worker [(1, 5)] true evW3 htr
  exact ⟨(h.2.1 rfl).2.2.1, (h.2.1 rfl).1⟩

end FlushWorker

section Drain

variable {K V : Type} [DecidableEq K]

theorem tryEvict_facts (k : K) (s : CacheState K V) :
    ((s.updates ++ s.flushQ = s.reclaimed) →
      (tryEvictWithoutLock k s).2.updates ++ (tryEvictWithoutLock k s).2.flushQ
        = (tryEvictWithoutLock k s).2.reclaimed)
    ∧ (tryEvictWithoutLock k s).2.updates = s.updates
    ∧ (tryEvictWithoutLock k s).2.prunerGen = s.prunerGen
    ∧ (tryEvictWithoutLock k s).2.evictorGen = s.evictorGen := by
  unfold tryEvictWithoutLock
  cases lookupA s.index k with
  | none => exact ⟨fun h => h, rfl, rfl, rfl⟩
  | some e =>
    cases e with
    | Fetching ch => exact ⟨fun h => h, rfl, rfl, rfl⟩
    | Node n =>
      by_cases h0 : n.extRefs = 0
      · refine ⟨fun h => ?_, by simp [h0], by simp [h0], by simp [h0]⟩
        simp only [h0, if_true]
        rw [← List.append_assoc, h]
      · simp [h0]

theorem releaseHandle_facts (k : K) (s : CacheState K V) :
    (releaseHandle k s).updates = s.updates
    ∧ (releaseHandle k s).flushQ = s.flushQ
    ∧ (releaseHandle k s).reclaimed = s.reclaimed
    ∧ (releaseHandle k s).prunerGen = s.prunerGen
    ∧ (releaseHandle k s).evictorGen = s.evictorGen := by
  unfold releaseHandle
  cases lookupA s.index k with
  | none => exact ⟨rfl, rfl, rfl, rfl, rfl⟩
  | some e =>
    cases e with
    | Fetching ch => exact ⟨rfl, rfl, rfl, rfl, rfl⟩
    | Node n =>
      by_cases h0 : n.extRefs ≠ 0 <;> simp [h0]

/-- One accumulator step of the drain-pass fold (the body of the `for key
in keys` loop at src/cache.rs lines 238-240, including the `&&`
short-circuit of `all_done`). -/
def dpStep (p : CacheState K V × Bool) (k : K) : CacheState K V × Bool :=
  if p.2 then
    let r := tryEvictWithoutLock k p.1
    (r.2, r.1)
  else p

theorem drainPassKeys_eq (s : CacheState K V) (ks : List K) :
    drainPassKeys s ks = ks.foldl dpStep (s, true) := rfl

theorem dpFold_false (ks : List K) (s : CacheState K V) :
    ks.foldl dpStep (s, false) = (s, false) := by
  induction ks with
  | nil => rfl
  | cons a t ih => rw [List.foldl_cons]; exact ih

theorem dpFold_facts (ks : List K) :
    ∀ p : CacheState K V × Bool,
      ((p.1.updates ++ p.1.flushQ = p.1.reclaimed) →
        (ks.foldl dpStep p).1.updates ++ (ks.foldl dpStep p).1.flushQ
          = (ks.foldl dpStep p).1.reclaimed)
      ∧ (ks.foldl dpStep p).1.updates = p.1.updates
      ∧ (ks.foldl dpStep p).1.prunerGen = p.1.prunerGen
      ∧ (ks.foldl dpStep p).1.evictorGen = p.1.evictorGen := by
  induction ks with
  | nil => exact fun p => ⟨fun h => h, rfl, rfl, rfl⟩
  | cons a t ih =>
    intro p
    rw [List.foldl_cons]
    by_cases hb : p.2 = true
    · have hstep : dpStep p a
          = ((tryEvictWithoutLock a p.1).2, (tryEvictWithoutLock a p.1).1) := by
        simp [dpStep, hb]
      rw [hstep]
      obtain ⟨i1, i2, i3, i4⟩ :=
        ih ((tryEvictWithoutLock a p.1).2, (tryEvictWithoutLock a p.1).1)
      obtain ⟨t1, t2, t3, t4⟩ := tryEvict_facts a p.1
      exact ⟨fun h => i1 (t1 h), i2.trans t2, i3.trans t3, i4.trans t4⟩
    · have hstep : dpStep p a = p := by simp [dpStep, hb]
      rw [hstep]
      exact ih p

theorem tryEvict_keys_subset (k : K) (s : CacheState K V)
    (h : (tryEvictWithoutLock k s).1 = true) :
    ∀ k', k' ∈ (tryEvictWithoutLock k s).2.index.map Prod.fst →
      k' ∈ s.index.map Prod.fst ∧ k' ≠ k := by
  unfold tryEvictWithoutLock at h ⊢
  cases hl : lookupA s.index k with
  | none =>
    intro k' hk'
    exact ⟨hk', fun hh => (not_mem_keys_of_lookupA_eq_none hl) (hh ▸ hk')⟩
  | some e =>
    cases e with
    | Fetching ch =>
      intro k' hk'
      exact keys_eraseA_subset hk'
    | Node n =>
      by_cases h0 : n.extRefs = 0
      · simp only [h0, if_true]
        intro k' hk'
        exact keys_eraseA_subset hk'
      · rw [hl] at h
        simp [h0] at h

theorem dpFold_done (ks : List K) :
    ∀ s : CacheState K V,
      (ks.foldl dpStep (s, true)).2 = true →
      ∀ k', k' ∈ (ks.foldl dpStep (s, true)).1.index.map Prod.fst →
        k' ∈ s.index.map Prod.fst ∧ k' ∉ ks := by
  induction ks with
  | nil =>
    intro s _ k' hk'
    exact ⟨hk', List.not_mem_nil k'⟩
  | cons a t ih =>
    intro s hdone k' hk'
    rw [List.foldl_cons] at hdone hk'
    by_cases hr : (tryEvictWithoutLock a s).1 = true
    · have hstep : dpStep (s, true) a = ((tryEvictWithoutLock a s).2, true) := by
        simp [dpStep, hr]
      rw [hstep] at hdone hk'
      obtain ⟨hmem, hnot⟩ := ih _ hdone k' hk'
      obtain ⟨hmem', hne⟩ := tryEvict_keys_subset a s hr k' hmem
      refine ⟨hmem', ?_⟩
      simp only [List.mem_cons]
      push_neg
      exact ⟨hne, hnot⟩
    · have hstep : dpStep (s, true) a = ((tryEvictWithoutLock a s).2, false) := by
        simp [dpStep, hr]
      rw [hstep, dpFold_false] at hdone
      cases hdone

theorem relFold_facts (ks : List K) :
    ∀ s : CacheState K V,
      ((ks.foldl (fun t k => releaseHandle k t) s).updates = s.updates)
      ∧ ((ks.foldl (fun t k => releaseHandle k t) s).flushQ = s.flushQ)
      ∧ ((ks.foldl (fun t k => releaseHandle k t) s).reclaimed = s.reclaimed)
      ∧ ((ks.foldl (fun t k => releaseHandle k t) s).prunerGen = s.prunerGen)
      ∧ ((ks.foldl (fun t k => releaseHandle k t) s).evictorGen = s.evictorGen) := by
  induction ks with
  | nil => exact fun s => ⟨rfl, rfl, rfl, rfl, rfl⟩
  | cons a t ih =>
    intro s
    obtain ⟨r1, r2, r3, r4, r5⟩ := releaseHandle_facts a s
    obtain ⟨i1, i2, i3, i4, i5⟩ := ih (releaseHandle a s)
    exact ⟨i1.trans r1, i2.trans r2, i3.trans r3, i4.trans r4, i5.trans r5⟩

theorem drainLoop_facts (sched : Nat → List K) (fuel : Nat) :
    ∀ s s' : CacheState K V,
      drainLoop sched fuel s = some s' →
      s'.index = []
      ∧ ((s.updates ++ s.flushQ = s.reclaimed) →
          s'.updates ++ s'.flushQ = s'.reclaimed)
      ∧ s'.prunerGen = s.prunerGen ∧ s'.evictorGen = s.evictorGen := by
  induction fuel with
  | zero => intro s s' h; cases h
  | succ f ih =>
    intro s s' h
    unfold drainLoop at h
    by_cases hemp : (s.index.map Prod.fst).isEmpty = true
    · rw [if_pos hemp] at h
      obtain rfl := Option.some.inj h
      refine ⟨?_, fun hh => hh, rfl, rfl⟩
      have : s.index.map Prod.fst = [] := List.isEmpty_iff.mp hemp
      exact List.map_eq_nil.mp this
    · rw [if_neg hemp] at h
      by_cases hdone : (drainPassKeys s (s.index.map Prod.fst)).2 = true
      · rw [if_pos hdone] at h
        obtain rfl := Option.some.inj h
        rw [drainPassKeys_eq] at hdone ⊢
        obtain ⟨f1, f2, f3⟩ :=
          (dpFold_facts (s.index.map Prod.fst) (s, true)).2
        refine ⟨?_, (dpFold_facts (s.index.map Prod.fst) (s, true)).1, f2, f3⟩
        have hempty : ∀ k', k' ∉ ((s.index.map Prod.fst).foldl dpStep (s, true)).1.index.map Prod.fst := by
          intro k' hk'
          obtain ⟨hmem, hnot⟩ := dpFold_done (s.index.map Prod.fst) s hdone k' hk'
          exact hnot hmem
        have : ((s.index.map Prod.fst).foldl dpStep (s, true)).1.index.map Prod.fst = [] :=
          List.eq_nil_iff_forall_not_mem.mpr hempty
        exact List.map_eq_nil.mp this
      · rw [if_neg hdone] at h
        obtain ⟨j1, j2, j3, j4⟩ := ih _ _ h
        obtain ⟨r1, r2, r3, r4, r5⟩ :=
          relFold_facts (sched f) (drainPassKeys s (s.index.map Prod.fst)).1
        obtain ⟨q1, q2, q3, q4⟩ :=
          dpFold_facts (K := K) (V := V) (s.index.map Prod.fst) ((s, true) : CacheState K V × Bool)
        rw [← drainPassKeys_eq] at q1 q2 q3 q4
        refine ⟨j1, fun hh => ?_, ?_, ?_⟩
        · apply j2
          rw [r1, r2, r3]
          exact q1 hh
        · rw [j3, r4, q3]
        · rw [j4, r5, q4]

/-- C4: postcondition of `evict_all_sync` (src/cache.rs lines 226-271).
Whenever the call returns, the index is empty; joining the rotated-out
flush worker means the store's update trace has absorbed the whole flush
queue, so the updates observed equal — as a sequence, hence as a multiset —
exactly the pairs ever handed to the flush pipeline by reclamation
(provided the same accounting held on entry); and the cache is left with a
freshly installed pruner and flush worker. -/
theorem C4_drain_postcondition (fuel : Nat) (sched : Nat → List K)
    (s s' : CacheState K V)
    (hinv : s.updates ++ s.flushQ = s.reclaimed)
    (h : evictAllSync fuel sched s = some s') :
    s'.index = [] ∧ s'.flushQ = [] ∧ s'.updates = s'.reclaimed
    ∧ s'.prunerGen = s.prunerGen + 1 ∧ s'.evictorGen = s.evictorGen + 1 := by
  unfold evictAllSync at h
  cases hd : drainLoop sched fuel s with
  | none => rw [hd] at h; cases h
  | some t =>
    rw [hd] at h
    simp only [Option.map_some'] at h
    obtain rfl := Option.some.inj h
    obtain ⟨d1, d2, d3, d4⟩ := drainLoop_facts sched fuel s t hd
    exact ⟨d1, rfl, d2 hinv, by rw [d3], by rw [d4]⟩

/-- A cache holding one unpinned resident entry, ready to drain. -/
def exDrainS : CacheState Nat Nat :=
  { CacheState.new Nat Nat with index := [(1, CacheEntry.Node ⟨5, 0, 0⟩)] }

/-- Witness for C4: draining `exDrainS` empties the index, flushes `(1, 5)`
into the update trace (updates = reclaimed), and installs generation-1
background workers. -/
theorem C4_drain_postcondition_witness :
    ((evictAllSync 2 (fun _ => []) exDrainS).getD (CacheState.new Nat Nat)).index = []
    ∧ ((evictAllSync 2 (fun _ => []) exDrainS).getD (CacheState.new Nat Nat)).updates
        = ((evictAllSync 2 (fun _ => []) exDrainS).getD (CacheState.new Nat Nat)).reclaimed
    ∧ ((evictAllSync 2 (fun _ => []) exDrainS).getD (CacheState.new Nat Nat)).prunerGen = 1
    ∧ ((evictAllSync 2 (fun _ => []) exDrainS).getD (CacheState.new Nat Nat)).evictorGen = 1 := by
  obtain ⟨t, ht⟩ : ∃ t, evictAllSync 2 (fun _ => []) exDrainS = some t := ⟨_, rfl⟩
  rw [ht]
  have h := C4_drain_postcondition 2 (fun _ => []) exDrainS t (by decide) ht
  exact ⟨h.1, h.2.2.1, h.2.2.2.1, h.2.2.2.2⟩

end Drain

section NoGhost

variable {K V : Type} [DecidableEq K]

/-- The value a resident index entry holds, if any. -/
def entryVal : CacheEntry V → Option V
  | CacheEntry.Fetching _ => none
  | CacheEntry.Node n => some n.value

/-- Value `w` occurs nowhere the flush pipeline can reach: not in the
index, not queued for flush, and not among the updates already delivered
to the store. -/
def noValue (w : V) (s : CacheState K V) : Prop :=
  (∀ p ∈ s.flushQ, p.2 ≠ w) ∧ (∀ p ∈ s.updates, p.2 ≠ w)
  ∧ (∀ p ∈ s.index, entryVal p.2 ≠ some w)

theorem noValue_insertA {w : V} {l : List (K × CacheEntry V)} {k : K} {e : CacheEntry V}
    (hl : ∀ p ∈ l, entryVal p.2 ≠ some w) (he : entryVal e ≠ some w) :
    ∀ p ∈ insertA l k e, entryVal p.2 ≠ some w := by
  intro p hp
  rcases mem_insertA hp with rfl | ⟨hp, _⟩
  · exact he
  · exact hl p hp

theorem noValue_eraseA {w : V} {l : List (K × CacheEntry V)} (k : K)
    (hl : ∀ p ∈ l, entryVal p.2 ≠ some w) :
    ∀ p ∈ eraseA l k, entryVal p.2 ≠ some w :=
  fun p hp => hl p (mem_eraseA hp).1

theorem noValue_getStart (w : V) (k : K) (s : CacheState K V) (h : noValue w s) :
    noValue w (getStart k s).1 := by
  obtain ⟨h1, h2, h3⟩ := h
  unfold getStart
  cases hl : lookupA s.index k with
  | none => exact ⟨h1, h2, noValue_insertA h3 (by simp [entryVal])⟩
  | some e =>
    cases e with
    | Fetching ch => exact ⟨h1, h2, h3⟩
    | Node n =>
      refine ⟨h1, h2, noValue_insertA h3 ?_⟩
      have hv := h3 (k, CacheEntry.Node n) (mem_of_lookupA hl)
      simpa [entryVal] using hv

theorem noValue_producerFinish (w : V) (F : K → V) (k : K) (ch : Nat)
    (s : CacheState K V) (hF : F k ≠ w) (h : noValue w s) :
    noValue w (producerFinish F k ch s) := by
  obtain ⟨h1, h2, h3⟩ := h
  cases hl : lookupA s.index k with
  | none =>
    rw [producerFinish_vacant F k ch s hl]
    exact ⟨h1, h2, noValue_insertA h3 (by simpa [entryVal] using hF)⟩
  | some e =>
    cases e with
    | Fetching ch' =>
      rw [producerFinish_fetching F k ch ch' s hl]
      exact ⟨h1, h2, noValue_insertA h3 (by simpa [entryVal] using hF)⟩
    | Node n =>
      rw [producerFinish_node F k ch s n hl]
      refine ⟨h1, h2, noValue_insertA h3 ?_⟩
      have hv := h3 (k, CacheEntry.Node n) (mem_of_lookupA hl)
      simpa [entryVal] using hv

theorem noValue_insertOp (w : V) (k : K) (v : V) (r : Nat) (s : CacheState K V)
    (hv : v ≠ w) (h : noValue w s) : noValue w (insertOp k v r s) :=
  ⟨h.1, h.2.1, noValue_insertA h.2.2 (by simpa [entryVal] using hv)⟩

theorem noValue_tryEvict (w : V) (k : K) (s : CacheState K V) (h : noValue w s) :
    noValue w (tryEvictWithoutLock k s).2 := by
  obtain ⟨h1, h2, h3⟩ := h
  unfold tryEvictWithoutLock
  cases hl : lookupA s.index k with
  | none => exact ⟨h1, h2, h3⟩
  | some e =>
    cases e with
    | Fetching ch => exact ⟨h1, h2, noValue_eraseA k h3⟩
    | Node n =>
      dsimp only
      by_cases h0 : n.extRefs = 0
      · rw [if_pos h0]
        refine ⟨?_, h2, noValue_eraseA k h3⟩
        intro p hp
        rcases List.mem_append.mp hp with hp | hp
        · exact h1 p hp
        · have hv := h3 (k, CacheEntry.Node n) (mem_of_lookupA hl)
          simp only [List.mem_singleton] at hp
          subst hp
          simpa [entryVal] using hv
      · rw [if_neg h0]
        exact ⟨h1, h2, h3⟩

theorem noValue_release (w : V) (k : K) (s : CacheState K V) (h : noValue w s) :
    noValue w (releaseHandle k s) := by
  obtain ⟨h1, h2, h3⟩ := h
  unfold releaseHandle
  cases hl : lookupA s.index k with
  | none => exact ⟨h1, h2, h3⟩
  | some e =>
    cases e with
    | Fetching ch => exact ⟨h1, h2, h3⟩
    | Node n =>
      dsimp only
      by_cases h0 : n.extRefs ≠ 0
      · rw [if_pos h0]
        refine ⟨h1, h2, noValue_insertA h3 ?_⟩
        have hv := h3 (k, CacheEntry.Node n) (mem_of_lookupA hl)
        simpa [entryVal] using hv
      · rw [if_neg h0]
        exact ⟨h1, h2, h3⟩

theorem noValue_prunePassKey (w : V) (ttl nowTs : Nat) (s : CacheState K V) (k : K)
    (h : noValue w s) : noValue w (prunePassKey ttl nowTs s k) := by
  obtain ⟨h1, h2, h3⟩ := h
  unfold prunePassKey
  cases hl : lookupA s.index k with
  | none => exact ⟨h1, h2, h3⟩
  | some e =>
    cases e with
    | Fetching ch => exact ⟨h1, h2, h3⟩
    | Node n =>
      dsimp only
      by_cases ht : nowTs - n.lastAccessTs < ttl
      · rw [if_pos ht]
        exact ⟨h1, h2, h3⟩
      · rw [if_neg ht]
        by_cases h0 : n.extRefs = 0
        · rw [if_pos h0]
          refine ⟨?_, h2, noValue_eraseA k h3⟩
          intro p hp
          rcases List.mem_append.mp hp with hp | hp
          · exact h1 p hp
          · have hv := h3 (k, CacheEntry.Node n) (mem_of_lookupA hl)
            simp only [List.mem_singleton] at hp
            subst hp
            simpa [entryVal] using hv
        · rw [if_neg h0]
          exact ⟨h1, h2, h3⟩

theorem noValue_pruneFold (w : V) (ttl nowTs : Nat) (ks : List K) :
    ∀ s : CacheState K V, noValue w s →
      noValue w (ks.foldl (prunePassKey ttl nowTs) s) := by
  induction ks with
  | nil => exact fun s h => h
  | cons a t ih =>
    intro s h
    rw [List.foldl_cons]
    exact ih _ (noValue_prunePassKey w ttl nowTs s a h)

theorem noValue_prunePassNow (w : V) (s : CacheState K V) (h : noValue w s) :
    noValue w (prunePassNow s) :=
  noValue_pruneFold w s.accessTtl s.now (s.index.map Prod.fst) s h

theorem noValue_evictorStep (w : V) (s : CacheState K V) (h : noValue w s) :
    noValue w (evictorStep s) := by
  obtain ⟨h1, h2, h3⟩ := h
  unfold evictorStep
  cases hq : s.flushQ with
  | nil => exact ⟨h1, h2, h3⟩
  | cons p rest =>
    refine ⟨fun p' hp' => h1 p' (by rw [hq]; exact List.mem_cons_of_mem _ hp'), ?_, h3⟩
    intro p' hp'
    rcases List.mem_append.mp hp' with hp' | hp'
    · exact h2 p' hp'
    · simp only [List.mem_singleton] at hp'
      subst hp'
      exact h1 p' (by rw [hq]; exact List.mem_cons_self _ _)

theorem noValue_dpFold (w : V) (ks : List K) :
    ∀ p : CacheState K V × Bool, noValue w p.1 →
      noValue w ((ks.foldl dpStep p).1) := by
  induction ks with
  | nil => exact fun p h => h
  | cons a t ih =>
    intro p h
    rw [List.foldl_cons]
    by_cases hb : p.2 = true
    · have hstep : dpStep p a
          = ((tryEvictWithoutLock a p.1).2, (tryEvictWithoutLock a p.1).1) := by
        simp [dpStep, hb]
      rw [hstep]
      exact ih _ (noValue_tryEvict w a p.1 h)
    · have hstep : dpStep p a = p := by simp [dpStep, hb]
      rw [hstep]
      exact ih p h

theorem noValue_relFold (w : V) (ks : List K) :
    ∀ s : CacheState K V, noValue w s →
      noValue w (ks.foldl (fun t k => releaseHandle k t) s) := by
  induction ks with
  | nil => exact fun s h => h
  | cons a t ih =>
    intro s h
    rw [List.foldl_cons]
    exact ih _ (noValue_release w a s h)

theorem noValue_drainLoop (w : V) (sched : Nat → List K) (fuel : Nat) :
    ∀ s s' : CacheState K V, drainLoop sched fuel s = some s' →
      noValue w s → noValue w s' := by
  induction fuel with
  | zero => intro s s' h; cases h
  | succ f ih =>
    intro s s' h hs
    unfold drainLoop at h
    by_cases hemp : (s.index.map Prod.fst).isEmpty = true
    · rw [if_pos hemp] at h
      obtain rfl := Option.some.inj h
      exact hs
    · rw [if_neg hemp] at h
      by_cases hdone : (drainPassKeys s (s.index.map Prod.fst)).2 = true
      · rw [if_pos hdone] at h
        obtain rfl := Option.some.inj h
        rw [drainPassKeys_eq]
        exact noValue_dpFold w _ _ hs
      · rw [if_neg hdone] at h
        refine ih _ _ h ?_
        apply noValue_relFold
        rw [drainPassKeys_eq]
        exact noValue_dpFold w _ _ hs

theorem noValue_evictAllSync (w : V) (fuel : Nat) (sched : Nat → List K)
    (s s' : CacheState K V) (h : evictAllSync fuel sched s = some s')
    (hs : noValue w s) : noValue w s' := by
  unfold evictAllSync at h
  cases hd : drainLoop sched fuel s with
  | none => rw [hd] at h; cases h
  | some t =>
    rw [hd] at h
    simp only [Option.map_some'] at h
    obtain rfl := Option.some.inj h
    obtain ⟨t1, t2, t3⟩ := noValue_drainLoop w sched fuel s t hd hs
    refine ⟨fun p hp => absurd hp (List.not_mem_nil p), ?_, t3⟩
    intro p hp
    rcases List.mem_append.mp hp with hp | hp
    · exact t2 p hp
    · exact t1 p hp

theorem noValue_applyOp (w : V) (F : K → V) (hF : ∀ j, F j ≠ w) (s : CacheState K V)
    (o : Op K V) (ho : insVal o ≠ some w) (h : noValue w s) :
    noValue w (applyOp F s o) := by
  cases o with
  | get k => exact noValue_getStart w k s h
  | fin k ch =>
    by_cases hmem : (k, ch) ∈ s.producers
    · simpa [applyOp, hmem] using noValue_producerFinish w F k ch s (hF k) h
    · simpa [applyOp, hmem] using h
  | ins k v r =>
    have hv : v ≠ w := fun hh => ho (by simp [insVal, hh])
    exact noValue_insertOp w k v r s hv h
  | tryEv k => exact noValue_tryEvict w k s h
  | rel k => exact noValue_release w k s h
  | prune => exact noValue_prunePassNow w s h
  | evict1 => exact noValue_evictorStep w s h
  | tick d => exact ⟨h.1, h.2.1, h.2.2⟩
  | drain fuel sched =>
    cases hd : evictAllSync fuel sched s with
    | none => simpa [applyOp, hd] using h
    | some t =>
      simpa [applyOp, hd] using noValue_evictAllSync w fuel sched s t hd h

theorem runOps_cons (F : K → V) (s : CacheState K V) (o : Op K V) (t : List (Op K V)) :
    runOps F s (o :: t) = runOps F (applyOp F s o) t := rfl

theorem noValue_runOps (w : V) (F : K → V) (hF : ∀ j, F j ≠ w) (ops : List (Op K V)) :
    ∀ s : CacheState K V, (∀ o ∈ ops, insVal o ≠ some w) → noValue w s →
      noValue w (runOps F s ops) := by
  induction ops with
  | nil => exact fun s _ h => h
  | cons o t ih =>
    intro s hops h
    rw [runOps_cons]
    exact ih _ (fun o' ho' => hops o' (List.mem_cons_of_mem _ ho'))
      (noValue_applyOp w F hF s o (hops o (List.mem_cons_self _ _)) h)

/-- C10 (implicit): `insert(k, v′)` over a key whose entry is already
resident with value `w` (src/cache.rs lines 179-184) just replaces the
entry in the `HashMap`, dropping the cache's `Arc` to `w` without sending
anything on `evict_tx` — so along any continuation of the run in which `w`
is not re-introduced (no later `insert` of `w`; the store never fetches
`w`), the store never observes an `update` call carrying the replaced
value, whether `w` had been produced by an earlier fetch or insert. -/
theorem C10_insert_no_writeback (F : K → V) (w : V) (s : CacheState K V) (k : K)
    (n : RealCacheNode V) (v' : V) (r : Nat) (ops : List (Op K V))
    (hn : lookupA s.index k = some (CacheEntry.Node n)) (hw : n.value = w)
    (hv' : v' ≠ w) (hF : ∀ j, F j ≠ w)
    (hfl : ∀ p ∈ s.flushQ, p.2 ≠ w) (hup : ∀ p ∈ s.updates, p.2 ≠ w)
    (hoth : ∀ p ∈ s.index, p.1 ≠ k → entryVal p.2 ≠ some w)
    (hops : ∀ o ∈ ops, insVal o ≠ some w) :
    (insertOp k v' r s).flushQ = s.flushQ
    ∧ lookupA (insertOp k v' r s).index k = some (CacheEntry.Node ⟨v', s.now, r⟩)
    ∧ ∀ p ∈ (runOps F (insertOp k v' r s) ops).updates, p.2 ≠ w := by
  have hnv : noValue w (insertOp k v' r s) := by
    refine ⟨hfl, hup, ?_⟩
    intro p hp
    rcases mem_insertA hp with rfl | ⟨hp, hne⟩
    · simpa [entryVal] using hv'
    · exact hoth p hp hne
  exact ⟨rfl, by simp [insertOp],
    (noValue_runOps w F hF ops (insertOp k v' r s) hops hnv).2.1⟩

/-- A cache resident with `(0 ↦ 5)`, about to be overwritten by an insert. -/
def c10s : CacheState Nat Nat :=
  { CacheState.new Nat Nat with index := [(0, CacheEntry.Node ⟨5, 0, 0⟩)] }

/-- Continuation after the insert: read, release, evict and flush key 0. -/
def c10ops : List (Op Nat Nat) := [Op.get 0, Op.rel 0, Op.tryEv 0, Op.evict1]

/-- Witness for C10: overwriting `(0 ↦ 5)` with 7 enqueues nothing, and
after a get/release/evict/flush continuation the store never saw an update
carrying the replaced 5. -/
theorem C10_insert_no_writeback_witness :
    (insertOp 0 7 0 c10s).flushQ = []
    ∧ ¬ ((0, 5) ∈ (runOps (fun _ => 9) (insertOp 0 7 0 c10s) c10ops).updates) := by
  have h := C10_insert_no_writeback (fun _ => 9) 5 c10s 0 ⟨5, 0, 0⟩ 7 0 c10ops
    (by decide) (by decide) (by decide) (fun _ => (by decide : (9 : Nat) ≠ 5))
    (by decide) (by decide) (by decide) (by decide)
  exact ⟨h.1, fun hm => h.2.2 (0, 5) hm rfl⟩

end NoGhost

end Thru
